import Mathlib

/-!
Shallow embedding of `src/data/update.py`, a utility that downloads three
Unicode Character Database text files, normalizes them (strips blank lines,
ensures a single trailing newline) and writes them into an output directory.

Pure string functions of the script are embedded as Lean functions on
`String` / `List Char`.  Python operations that can raise (`s[-1]` on an
empty string, `bytes.decode`) return `Option`.  The effectful part
(`requests.get`, `open`/`write`, the `main` loop) is embedded as explicit
state passing over a `World` record holding the network oracle, the
filesystem, the log of issued GET requests and standard output.
-/

namespace UnicodeUpdate

/-- Embeds `url = "https://www.unicode.org/Public/UCD/latest/ucd/"` (line 5). -/
def url : String := "https://www.unicode.org/Public/UCD/latest/ucd/"

/-- Embeds `files = ["CaseFolding.txt", "UnicodeData.txt", "emoji/emoji-data.txt"]` (line 7). -/
def files : List String := ["CaseFolding.txt", "UnicodeData.txt", "emoji/emoji-data.txt"]

/-- Embeds `get_full_path(file) = url + file` (lines 9-10). -/
def get_full_path (file : String) : String := url ++ file

/-- Embeds Python `str.split(sep)` for a one-character separator: the list of
maximal (possibly empty) chunks between occurrences of `c`; always non-empty,
`[""]` on the empty string, exactly as in Python. -/
def splitAll (c : Char) : List Char → List (List Char)
  | [] => [[]]
  | x :: xs =>
    match splitAll c xs with
    | [] => [[]]
    | y :: ys => if x = c then [] :: y :: ys else (x :: y) :: ys

/-- Embeds `get_file_name(file) = file.split("/")[-1]` (lines 12-13).
Python `[-1]` is the last element; `split` never returns an empty list, so the
`getLastD` default is never used. -/
def get_file_name (file : String) : String := ⟨(splitAll '/' file.data).getLastD []⟩

/-- The line-boundary characters of Python `str.splitlines`:
LF, CR, VT, FF, FS, GS, RS, NEL, LINE SEPARATOR, PARAGRAPH SEPARATOR
(CRLF is handled as a unit by `splitlines` below). -/
def isLineBreak (c : Char) : Bool :=
  c == '\n' || c == '\r' || c == '\x0b' || c == '\x0c' || c == '\x1c' ||
  c == '\x1d' || c == '\x1e' || c == '\x85' || c == '\u2028' || c == '\u2029'

/-- Embeds Python `str.splitlines()`: split on universal line boundaries
(`\r\n` counts as a single boundary), without keeping the boundaries, and
with no trailing empty line for a trailing boundary. -/
def splitlines : List Char → List (List Char)
  | [] => []
  | [x] => if isLineBreak x then [[]] else [[x]]
  | x :: y :: rest =>
    if x = '\r' ∧ y = '\n' then
      [] :: splitlines rest
    else if isLineBreak x then
      [] :: splitlines (y :: rest)
    else
      match splitlines (y :: rest) with
      | [] => [[x]]
      | z :: zs => (x :: z) :: zs

/-- Embeds Python `"\n".join(lines)`. -/
def joinWithNewline : List (List Char) → List Char
  | [] => []
  | [l] => l
  | l :: ls => l ++ '\n' :: joinWithNewline ls

/-- Embeds `strip_blank_lines(s) = "\n".join([line for line in s.splitlines() if len(line) > 0])`
(lines 15-16). -/
def strip_blank_lines (s : String) : String :=
  ⟨joinWithNewline ((splitlines s.data).filter (fun line => decide (0 < line.length)))⟩

/-- Embeds `add_newline(s)` (lines 23-27): `s[-1]` raises `IndexError` on the
empty string, modelled as `none` (`getLast? = none`); otherwise return `s` if
its last character is `'\n'`, else `s + "\n"`. -/
def add_newline (s : String) : Option String :=
  s.data.getLast?.map (fun c => if c = '\n' then s else s ++ "\n")

/-- Embeds `strip_file(s) = add_newline(strip_blank_lines(s))` (lines 18-21). -/
def strip_file (s : String) : Option String :=
  add_newline (strip_blank_lines s)

/-- True for a UTF-8 continuation byte `0x80..0xBF`. -/
def isCont (b : Nat) : Bool := 0x80 ≤ b && b ≤ 0xBF

/-- Embeds Python `bytes.decode(encoding="utf-8")` (strict): decode a byte
sequence as UTF-8, `none` on any invalid sequence (stray continuation byte,
overlong encoding, surrogate code point, out-of-range code point, truncated
sequence), exactly the sequences the strict codec rejects. -/
def decodeUtf8 : List Nat → Option (List Char)
  | [] => some []
  | b :: rest =>
    if b < 0x80 then
      (decodeUtf8 rest).map (fun cs => Char.ofNat b :: cs)
    else if b < 0xC2 then
      none
    else if b < 0xE0 then
      match rest with
      | b1 :: rest2 =>
        if isCont b1 then
          (decodeUtf8 rest2).map (fun cs => Char.ofNat ((b - 0xC0) * 0x40 + (b1 - 0x80)) :: cs)
        else none
      | [] => none
    else if b < 0xF0 then
      match rest with
      | b1 :: b2 :: rest2 =>
        if isCont b1 && isCont b2 then
          let n := (b - 0xE0) * 0x1000 + (b1 - 0x80) * 0x40 + (b2 - 0x80)
          if 0x800 ≤ n && !(0xD800 ≤ n && n ≤ 0xDFFF) then
            (decodeUtf8 rest2).map (fun cs => Char.ofNat n :: cs)
          else none
        else none
      | [_] => none
      | [] => none
    else if b < 0xF5 then
      match rest with
      | b1 :: b2 :: b3 :: rest2 =>
        if isCont b1 && isCont b2 && isCont b3 then
          let n := (b - 0xF0) * 0x40000 + (b1 - 0x80) * 0x1000 + (b2 - 0x80) * 0x40 + (b3 - 0x80)
          if 0x10000 ≤ n && n ≤ 0x10FFFF then
            (decodeUtf8 rest2).map (fun cs => Char.ofNat n :: cs)
          else none
        else none
      | [_, _] => none
      | [_] => none
      | [] => none
    else
      none

/-- Model of a `requests` HTTP response: the status code and the raw body
bytes (`resp.content`).  `requests.get` returns such a response for every
completed HTTP exchange, whatever the status code; the script never reads
`status` (it calls no `raise_for_status`), the field is carried only so that
non-success responses can be expressed. -/
structure Response where
  status : Nat
  content : List Nat

/-- Errors a run of the script can raise: a transport-level failure of
`requests.get` (carrying an opaque error id), a `UnicodeDecodeError` from
`bytes.decode`, or the `IndexError` from `add_newline` on an empty string. -/
inductive Err where
  | netFail (e : Nat)
  | decodeFail
  | indexError
deriving DecidableEq

/-- World state threaded through the effectful part of the script: the
network oracle (what each GET returns, a transport error or a response), the
filesystem as an association list from path to contents (later writes shadow
earlier ones), the chronological log of GET URLs issued, and the lines
printed to standard output. -/
structure World where
  net : String → Except Nat Response
  fs : List (String × String)
  log : List String
  stdout : List String

/-- Filesystem write: `open(path, "w+")` followed by `write` sets the file at
`path` to `v` (create-or-truncate-then-write). -/
def fsSet (fs : List (String × String)) (k v : String) : List (String × String) :=
  (k, v) :: fs

/-- Filesystem lookup: contents of the file at `k`, `none` if no such file. -/
def fsGet (fs : List (String × String)) (k : String) : Option String :=
  (fs.find? (fun p => p.1 == k)).map (fun p => p.2)

/-- Embeds `download_file(filename, out_dir)` (lines 29-39), in the exact
order of the source: build the URL, issue the GET (`requests.get` raises only
on transport failure, not on a non-success status), then `open(..., "w+")`
the output file — which creates-or-truncates it BEFORE any decoding — then
decode the body as UTF-8, normalize, and write.  `os.path.join(out_dir, name)`
is modelled as `out_dir ++ "/" ++ name` (the script is run with a plain
directory argument and relative basenames). -/
def download_file (filename : String) (out_dir : String) (w : World) :
    World × Except Err Unit :=
  let path := get_full_path filename
  let w1 : World := { w with log := w.log ++ [path] }
  match w.net path with
  | .error e => (w1, .error (.netFail e))
  | .ok resp =>
    let out_filename := get_file_name filename
    let full := out_dir ++ "/" ++ out_filename
    let w2 : World := { w1 with fs := fsSet w1.fs full "" }
    match decodeUtf8 resp.content with
    | none => (w2, .error .decodeFail)
    | some cs =>
      match strip_file ⟨cs⟩ with
      | none => (w2, .error .indexError)
      | some s => ({ w2 with fs := fsSet w2.fs full s }, .ok ())

/-- Embeds `usage()` (lines 41-42): print the usage line to standard output. -/
def usage (w : World) : World :=
  { w with stdout := w.stdout ++ ["usage: update.py <data directory>"] }

/-- Embeds the `for file in files: download_file(file, out_dir)` loop of
`main` (lines 51-52): process descriptors in list order, stopping at the
first error, which propagates with the world state reached so far. -/
def runAll : List String → String → World → World × Except Err Unit
  | [], _, w => (w, .ok ())
  | f :: rest, d, w =>
    match download_file f d w with
    | (w', .ok _) => runAll rest d w'
    | (w', .error e) => (w', .error e)

/-- Embeds `main(args)` (lines 44-54): with fewer than two arguments or a
`-h`/`--help` first argument, print usage and return 1; otherwise run the
download loop over `files` with `args[1]` as output directory and return 0,
any exception propagating unchanged.  (`args.getD 1 ""` is only reached when
`args` has at least two elements, as in the Python short-circuit.) -/
def main (args : List String) (w : World) : World × Except Err Nat :=
  if args.length < 2 ∨ args.getD 1 "" ∈ ["-h", "--help"] then
    (usage w, .ok 1)
  else
    match runAll files (args.getD 1 "") w with
    | (w', .ok _) => (w', .ok 0)
    | (w', .error e) => (w', .error e)

/-- Test world: every GET succeeds with status 200 and body `"x"` (byte 0x78). -/
def w0 : World :=
  { net := fun _ => .ok { status := 200, content := [0x78] }, fs := [], log := [], stdout := [] }

/-- Test world: every GET succeeds with status 200 but a body that is not
valid UTF-8 (the single byte 0xFF). -/
def wBad : World :=
  { net := fun _ => .ok { status := 200, content := [0xFF] }, fs := [], log := [], stdout := [] }

/-- Test world: every GET completes with the non-success status 404 and the
ASCII body `"not found"` (as an HTTP error page would be). -/
def notFoundBody : List Nat := [0x6E, 0x6F, 0x74, 0x20, 0x66, 0x6F, 0x75, 0x6E, 0x64]

def w404 : World :=
  { net := fun _ => .ok { status := 404, content := notFoundBody }, fs := [], log := [], stdout := [] }

/-- Test world: every GET fails at the transport level with error id 7. -/
def wErr : World :=
  { net := fun _ => .error 7, fs := [], log := [], stdout := [] }

end UnicodeUpdate

namespace UnicodeUpdate

/-! Helper lemmas about `splitlines`, `joinWithNewline` and `splitAll`. -/

theorem splitlines_cons2 (x y : Char) (rest : List Char) :
    splitlines (x :: y :: rest) =
      if x = '\r' ∧ y = '\n' then
        [] :: splitlines rest
      else if isLineBreak x then
        [] :: splitlines (y :: rest)
      else
        match splitlines (y :: rest) with
        | [] => [[x]]
        | z :: zs => (x :: z) :: zs := by
  rw [splitlines]

theorem splitlines_ne_nil : ∀ (l : List Char), l ≠ [] → splitlines l ≠ [] := by
  intro l h
  match l with
  | [x] =>
    rw [splitlines]
    split <;> simp
  | x :: y :: rest =>
    rw [splitlines_cons2]
    split
    · simp
    · split
      · simp
      · split <;> simp

theorem splitlines_cons_not_break (x : Char) (w : List Char)
    (hx : isLineBreak x = false) (hw : w ≠ []) :
    splitlines (x :: w) =
      match splitlines w with
      | [] => [[x]]
      | z :: zs => (x :: z) :: zs := by
  have hxr : ¬ x = '\r' := by
    intro h
    subst h
    simp [isLineBreak] at hx
  match w with
  | y :: ys =>
    rw [splitlines_cons2, if_neg (by intro h; exact hxr h.1), if_neg (by simp [hx])]

theorem splitlines_newline_cons (w : List Char) :
    splitlines ('\n' :: w) = [] :: splitlines w := by
  match w with
  | [] => rw [splitlines]; rfl
  | y :: ys =>
    rw [splitlines_cons2, if_neg (by intro h; exact absurd h.1 (by decide)),
      if_pos (by decide)]

theorem splitlines_append (rest : List Char) :
    ∀ (l : List Char), (∀ c ∈ l, isLineBreak c = false) →
      splitlines (l ++ '\n' :: rest) = l :: splitlines rest := by
  intro l
  induction l with
  | nil => intro _; simpa using splitlines_newline_cons rest
  | cons a l ih =>
    intro h
    have ha : isLineBreak a = false := h a (List.mem_cons_self a l)
    rw [List.cons_append,
      splitlines_cons_not_break a _ ha (by simp),
      ih (fun c hc => h c (List.mem_cons_of_mem a hc))]

theorem splitlines_no_break : ∀ (l : List Char), l ≠ [] →
    (∀ c ∈ l, isLineBreak c = false) → splitlines l = [l] := by
  intro l
  induction l with
  | nil => intro h; cases h rfl
  | cons a l ih =>
    intro _ h
    have ha : isLineBreak a = false := h a (List.mem_cons_self a l)
    cases l with
    | nil => rw [splitlines, if_neg (by simp [ha])]
    | cons b t =>
      rw [splitlines_cons_not_break a (b :: t) ha (by simp),
        ih (by simp) (fun c hc => h c (List.mem_cons_of_mem a hc))]

theorem lines_no_break : ∀ (l : List Char), ∀ line ∈ splitlines l, ∀ c ∈ line,
    isLineBreak c = false
  | [] => by rw [splitlines]; simp
  | [x] => by
    rw [splitlines]
    split
    · simp
    · next hx =>
      intro line hl c hc
      simp only [List.mem_singleton] at hl
      subst hl
      simp only [List.mem_singleton] at hc
      subst hc
      simpa using hx
  | x :: y :: rest => by
    have ih1 := lines_no_break rest
    have ih2 := lines_no_break (y :: rest)
    rw [splitlines_cons2]
    split
    · intro line hl
      rcases List.mem_cons.mp hl with rfl | hl2
      · simp
      · exact ih1 line hl2
    · split
      · intro line hl
        rcases List.mem_cons.mp hl with rfl | hl2
        · simp
        · exact ih2 line hl2
      · next hxr hx =>
        have hx' : isLineBreak x = false := by simpa using hx
        split
        · next hsp =>
          intro line hl
          rcases List.mem_cons.mp hl with rfl | hl2
          · intro c hc
            simp only [List.mem_singleton] at hc
            subst hc
            exact hx'
          · cases hl2
        · next z zs hsp =>
          intro line hl
          rcases List.mem_cons.mp hl with rfl | hl2
          · intro c hc
            rcases List.mem_cons.mp hc with rfl | hc2
            · exact hx'
            · exact ih2 z (hsp ▸ List.mem_cons_self z zs) c hc2
          · exact ih2 line (hsp ▸ List.mem_cons_of_mem z hl2)
  termination_by l => l.length

theorem joinWithNewline_ne_nil (l : List Char) (ls : List (List Char)) (h : l ≠ []) :
    joinWithNewline (l :: ls) ≠ [] := by
  cases ls <;> simp [joinWithNewline, h]

theorem joinWithNewline_cons2 (l l2 : List Char) (ls : List (List Char)) :
    joinWithNewline (l :: l2 :: ls) = l ++ '\n' :: joinWithNewline (l2 :: ls) := rfl

theorem mem_joinWithNewline : ∀ (L : List (List Char)) (c : Char),
    c ∈ joinWithNewline L → c = '\n' ∨ ∃ l ∈ L, c ∈ l := by
  intro L
  induction L with
  | nil => simp [joinWithNewline]
  | cons l ls ih =>
    cases ls with
    | nil =>
      intro c hc
      exact Or.inr ⟨l, List.mem_cons_self l [], hc⟩
    | cons l2 ls2 =>
      intro c hc
      rw [joinWithNewline_cons2] at hc
      rcases List.mem_append.mp hc with h1 | h2
      · exact Or.inr ⟨l, List.mem_cons_self l _, h1⟩
      · rcases List.mem_cons.mp h2 with rfl | h3
        · exact Or.inl rfl
        · rcases ih c h3 with h4 | ⟨m, hm, hcm⟩
          · exact Or.inl h4
          · exact Or.inr ⟨m, List.mem_cons_of_mem l hm, hcm⟩

theorem getLast?_joinWithNewline : ∀ (L : List (List Char)), (∀ l ∈ L, l ≠ []) →
    ∀ c, (joinWithNewline L).getLast? = some c → ∃ l ∈ L, c ∈ l := by
  intro L
  induction L with
  | nil => simp [joinWithNewline]
  | cons l ls ih =>
    intro h c hc
    cases ls with
    | nil =>
      exact ⟨l, List.mem_cons_self l [], List.mem_of_getLast?_eq_some hc⟩
    | cons l2 ls2 =>
      rw [joinWithNewline_cons2,
        List.getLast?_append_of_ne_nil l (by simp)] at hc
      have hJ : joinWithNewline (l2 :: ls2) ≠ [] :=
        joinWithNewline_ne_nil l2 ls2 (h l2 (List.mem_cons_of_mem l (List.mem_cons_self l2 ls2)))
      match hJ2 : joinWithNewline (l2 :: ls2) with
      | [] => exact absurd hJ2 hJ
      | b :: t =>
        rw [hJ2, List.getLast?_cons_cons] at hc
        have := ih (fun m hm => h m (List.mem_cons_of_mem l hm)) c (by rw [hJ2]; exact hc)
        rcases this with ⟨m, hm, hcm⟩
        exact ⟨m, List.mem_cons_of_mem l hm, hcm⟩

theorem splitlines_join : ∀ (L : List (List Char)), L ≠ [] →
    (∀ l ∈ L, ∀ c ∈ l, isLineBreak c = false) →
    splitlines (joinWithNewline L ++ ['\n']) = L := by
  intro L
  induction L with
  | nil => intro h; cases h rfl
  | cons l ls ih =>
    intro _ h
    cases ls with
    | nil =>
      have := splitlines_append [] l (h l (List.mem_cons_self l []))
      simpa [joinWithNewline, splitlines] using this
    | cons l2 ls2 =>
      rw [joinWithNewline_cons2, List.append_assoc, List.cons_append,
        splitlines_append _ l (h l (List.mem_cons_self l _)),
        ih (by simp) (fun m hm => h m (List.mem_cons_of_mem l hm))]

theorem splitAll_cons_of (c x : Char) (xs z : List Char) (zs : List (List Char))
    (h2 : splitAll c xs = z :: zs) :
    splitAll c (x :: xs) = if x = c then [] :: z :: zs else (x :: z) :: zs := by
  rw [splitAll, h2]

theorem splitAll_ne_nil (c : Char) : ∀ (l : List Char), splitAll c l ≠ [] := by
  intro l
  induction l with
  | nil => simp [splitAll]
  | cons x xs ih =>
    cases h : splitAll c xs with
    | nil => exact absurd h ih
    | cons y ys =>
      rw [splitAll_cons_of c x xs y ys h]
      split <;> simp

theorem splitAll_eq_single (c : Char) : ∀ (l : List Char) (y : List Char),
    splitAll c l = [y] → y = l ∧ c ∉ l := by
  intro l
  induction l with
  | nil =>
    intro y h
    rw [splitAll] at h
    simp only [List.cons.injEq] at h
    simp [h.1.symm]
  | cons x xs ih =>
    intro y h
    cases h2 : splitAll c xs with
    | nil => exact absurd h2 (splitAll_ne_nil c xs)
    | cons z zs =>
      rw [splitAll_cons_of c x xs z zs h2] at h
      by_cases hx : x = c
      · rw [if_pos hx] at h
        simp at h
      · rw [if_neg hx] at h
        simp only [List.cons.injEq] at h
        obtain ⟨hy, hzs⟩ := h
        have := ih z (by rw [h2, hzs])
        refine ⟨by rw [← hy, this.1], ?_⟩
        intro hc
        rcases List.mem_cons.mp hc with h3 | h3
        · exact hx h3.symm
        · exact this.2 h3

theorem splitAll_getLastD (c : Char) : ∀ (l : List Char),
    (c ∉ l → splitAll c l = [l]) ∧
    (c ∈ l → ∃ p, l = p ++ c :: (splitAll c l).getLastD [] ∧
      c ∉ (splitAll c l).getLastD []) := by
  intro l
  induction l with
  | nil => simp [splitAll]
  | cons x xs ih =>
    constructor
    · intro hc
      have hx : ¬ x = c := by intro h; exact hc (h ▸ List.mem_cons_self x xs)
      have hxs : c ∉ xs := fun h => hc (List.mem_cons_of_mem x h)
      rw [splitAll_cons_of c x xs xs [] (ih.1 hxs), if_neg hx]
    · intro hc
      cases h2 : splitAll c xs with
      | nil => exact absurd h2 (splitAll_ne_nil c xs)
      | cons z zs =>
        rw [splitAll_cons_of c x xs z zs h2]
        by_cases hx : x = c
        · rw [if_pos hx]
          have hlast : ([] :: z :: zs).getLastD [] = (splitAll c xs).getLastD [] := by
            rw [h2]
            rfl
          rw [hlast]
          by_cases hxs : c ∈ xs
          · obtain ⟨p, hp, hnp⟩ := ih.2 hxs
            exact ⟨x :: p, by rw [List.cons_append, ← hp], hnp⟩
          · rw [ih.1 hxs]
            have hxsl : ([xs] : List (List Char)).getLastD [] = xs := rfl
            rw [hxsl]
            exact ⟨[], by rw [List.nil_append, hx], hxs⟩
        · rw [if_neg hx]
          have hxs : c ∈ xs := by
            rcases List.mem_cons.mp hc with h3 | h3
            · exact absurd h3.symm hx
            · exact h3
          obtain ⟨p, hp, hnp⟩ := ih.2 hxs
          match zs with
          | [] =>
            have := splitAll_eq_single c xs z h2
            exact absurd hxs this.2
          | w :: ws =>
            have hlast : ((x :: z) :: w :: ws).getLastD [] = (splitAll c xs).getLastD [] := by
              rw [h2]
              rfl
            rw [hlast]
            exact ⟨x :: p, by rw [List.cons_append, ← hp], hnp⟩

/-- Characterization of `add_newline` applied to a join of non-empty,
line-break-free lines: the list must be non-empty, the output is the join
with exactly one `'\n'` appended, and `splitlines` recovers the lines. -/
theorem join_newline_spec (L : List (List Char)) (t : String)
    (hne : ∀ l ∈ L, l ≠ [])
    (hnb : ∀ l ∈ L, ∀ c ∈ l, isLineBreak c = false)
    (h : add_newline (String.mk (joinWithNewline L)) = some t) :
    L ≠ [] ∧
    t.data = joinWithNewline L ++ ['\n'] ∧
    (joinWithNewline L).getLast? ≠ some '\n' ∧
    splitlines t.data = L := by
  cases L with
  | nil =>
    have h2 : (([] : List Char).getLast?).map
        (fun c => if c = '\n' then String.mk (joinWithNewline [])
                  else String.mk (joinWithNewline []) ++ "\n") = some t := h
    simp at h2
  | cons l ls =>
    have hlne : l ≠ [] := hne l (List.mem_cons_self l ls)
    have hJne : joinWithNewline (l :: ls) ≠ [] := joinWithNewline_ne_nil l ls hlne
    have h2 : ((joinWithNewline (l :: ls)).getLast?).map
        (fun c => if c = '\n' then String.mk (joinWithNewline (l :: ls))
                  else String.mk (joinWithNewline (l :: ls)) ++ "\n") = some t := h
    match hlast : (joinWithNewline (l :: ls)).getLast? with
    | none => exact absurd (by simpa using hlast) hJne
    | some c =>
      have hcmem : ∃ m ∈ l :: ls, c ∈ m :=
        getLast?_joinWithNewline (l :: ls) hne c hlast
      have hcnb : isLineBreak c = false := by
        obtain ⟨m, hm, hcm⟩ := hcmem
        exact hnb m hm c hcm
      have hcne : ¬ c = '\n' := by
        intro hc
        rw [hc] at hcnb
        simp [isLineBreak] at hcnb
      rw [hlast] at h2
      simp only [Option.map_some', if_neg hcne, Option.some.injEq] at h2
      have htd : t.data = joinWithNewline (l :: ls) ++ ['\n'] := by
        rw [← h2, String.data_append]
      refine ⟨by simp, htd, by simp [hcne], ?_⟩
      rw [htd]
      exact splitlines_join (l :: ls) (by simp) hnb

/-- Master characterization of a successful `strip_file`: the output is the
list of non-blank lines of the input joined by `'\n'` with one `'\n'`
appended; the lines are non-empty and free of line-break characters, and
`splitlines` recovers exactly those lines from the output. -/
theorem strip_file_spec (s t : String) (h : strip_file s = some t) :
    ∃ L : List (List Char),
      L ≠ [] ∧
      (∀ l ∈ L, l ≠ []) ∧
      (∀ l ∈ L, ∀ c ∈ l, isLineBreak c = false) ∧
      t.data = joinWithNewline L ++ ['\n'] ∧
      (joinWithNewline L).getLast? ≠ some '\n' ∧
      splitlines t.data = L ∧
      (strip_blank_lines s).data = joinWithNewline L := by
  refine ⟨(splitlines s.data).filter (fun line => decide (0 < line.length)), ?_⟩
  have hne : ∀ l ∈ (splitlines s.data).filter (fun line => decide (0 < line.length)), l ≠ [] := by
    intro l hl
    have := List.of_mem_filter hl
    simp only [decide_eq_true_eq] at this
    exact List.ne_nil_of_length_pos this
  have hnb : ∀ l ∈ (splitlines s.data).filter (fun line => decide (0 < line.length)),
      ∀ c ∈ l, isLineBreak c = false := by
    intro l hl
    exact lines_no_break s.data l (List.mem_of_mem_filter hl)
  have h2 : add_newline (String.mk (joinWithNewline
      ((splitlines s.data).filter (fun line => decide (0 < line.length))))) = some t := h
  obtain ⟨a, b, c, d⟩ := join_newline_spec _ t hne hnb h2
  exact ⟨a, hne, hnb, b, c, d, rfl⟩

/-! Claim theorems. -/

/-- C9: `get_full_path` is string concatenation of the fixed base URL with
the descriptor; in particular on `"UnicodeData.txt"` it yields the full UCD
URL. -/
theorem full_path_concat :
    get_full_path "UnicodeData.txt" =
      "https://www.unicode.org/Public/UCD/latest/ucd/UnicodeData.txt" ∧
    ∀ f : String,
      get_full_path f = "https://www.unicode.org/Public/UCD/latest/ucd/" ++ f :=
  ⟨rfl, fun _ => rfl⟩

/-- C6: `strip_file` maps `"a\n\nb\n"` to `"a\nb\n"` (the blank line is
dropped) and `"a\nb"` to `"a\nb\n"` (the missing trailing newline is
appended). -/
theorem normalize_examples :
    strip_file "a\n\nb\n" = some "a\nb\n" ∧ strip_file "a\nb" = some "a\nb\n" :=
  ⟨by decide, by decide⟩

/-- C8: `get_file_name` returns the substring after the last `'/'` of the
descriptor: concretely on the two descriptors of the claim, and in general a
non-empty descriptor either contains no `'/'` and is returned whole, or
splits as `p ++ '/' :: basename` with a slash-free basename. -/
theorem file_name_basename :
    get_file_name "emoji/emoji-data.txt" = "emoji-data.txt" ∧
    get_file_name "CaseFolding.txt" = "CaseFolding.txt" ∧
    ∀ s : String, s ≠ "" →
      ('/' ∉ s.data → get_file_name s = s) ∧
      ('/' ∈ s.data →
        ∃ p, s.data = p ++ '/' :: (get_file_name s).data ∧
          '/' ∉ (get_file_name s).data) := by
  refine ⟨by decide, by decide, ?_⟩
  intro s _
  constructor
  · intro hc
    have h := (splitAll_getLastD '/' s.data).1 hc
    have h2 : get_file_name s = String.mk ((splitAll '/' s.data).getLastD []) := rfl
    rw [h2, h]
    rfl
  · intro hc
    obtain ⟨p, hp, hnp⟩ := (splitAll_getLastD '/' s.data).2 hc
    exact ⟨p, hp, hnp⟩

/-- Witness for C8: the general clause applied at the descriptor `"a/b"`. -/
theorem file_name_basename_witness :
    ∃ p, ("a/b" : String).data = p ++ '/' :: (get_file_name "a/b").data ∧
      '/' ∉ (get_file_name "a/b").data :=
  (file_name_basename.2.2 "a/b" (by decide)).2 (by decide)

/-- C1 counterexample: on the empty input string, `strip_file` does not
return a string at all — `add_newline` evaluates `s[-1]` on the empty
result of `strip_blank_lines`, which raises `IndexError` (modelled `none`) —
so it cannot return a string with the claimed shape for EVERY input. -/
theorem normalize_total_cex : strip_file "" = none := by decide

/-- C1 (amended): whenever `strip_file` returns a string, that string has no
zero-length lines and ends in exactly one trailing newline (its last
character is `'\n'` and the character before, if any, is not).  On inputs
with no non-blank line (such as `""` or `"\n"`) the function instead raises
`IndexError`. -/
theorem normalize_shape (s t : String) (h : strip_file s = some t) :
    (∀ line ∈ splitlines t.data, 0 < line.length) ∧
    ∃ u, t.data = u ++ ['\n'] ∧ u.getLast? ≠ some '\n' := by
  obtain ⟨_, _, hne, _, htd, hlast, hsplit, _⟩ := strip_file_spec s t h
  constructor
  · intro line hl
    rw [hsplit] at hl
    exact List.length_pos.mpr (hne line hl)
  · exact ⟨_, htd, hlast⟩

/-- Witness for C1 (amended) at the input `"a"`, whose output is `"a\n"`. -/
theorem normalize_shape_witness :
    (∀ line ∈ splitlines ("a\n" : String).data, 0 < line.length) ∧
    ∃ u, ("a\n" : String).data = u ++ ['\n'] ∧ u.getLast? ≠ some '\n' :=
  normalize_shape "a" "a\n" (by decide)

/-- C5: `strip_file` is idempotent: composing it with itself (propagating
the raised exception through `Option.bind`) equals a single application, and
every string it returns is a fixed point. -/
theorem normalize_idempotent :
    (∀ x : String, (strip_file x).bind strip_file = strip_file x) ∧
    (∀ x t : String, strip_file x = some t → strip_file t = some t) := by
  have key : ∀ x t : String, strip_file x = some t → strip_file t = some t := by
    intro x t h
    obtain ⟨L, hLne, hne, hnb, htd, hlast, hsplit, _⟩ := strip_file_spec x t h
    have hfilter : (splitlines t.data).filter (fun line => decide (0 < line.length)) = L := by
      rw [hsplit]
      exact List.filter_eq_self.mpr (fun l hl => by
        simp only [decide_eq_true_eq]
        exact List.length_pos.mpr (hne l hl))
    have hsbl : strip_blank_lines t = String.mk (joinWithNewline L) := by
      rw [strip_blank_lines, hfilter]
    rw [strip_file, hsbl]
    have hJne : joinWithNewline L ≠ [] := by
      cases L with
      | nil => exact absurd rfl hLne
      | cons l ls => exact joinWithNewline_ne_nil l ls (hne l (List.mem_cons_self l ls))
    match hlastJ : (joinWithNewline L).getLast? with
    | none => exact absurd (by simpa using hlastJ) hJne
    | some c =>
      have hcne : ¬ c = '\n' := by
        intro hcc
        rw [hcc] at hlastJ
        exact hlast hlastJ
      have h3 : add_newline (String.mk (joinWithNewline L)) =
          ((joinWithNewline L).getLast?).map
            (fun c => if c = '\n' then String.mk (joinWithNewline L)
                      else String.mk (joinWithNewline L) ++ "\n") := rfl
      rw [h3, hlastJ]
      simp only [Option.map_some', if_neg hcne, Option.some.injEq]
      have hdata : (String.mk (joinWithNewline L) ++ "\n").data = t.data := by
        rw [String.data_append, htd]
      calc String.mk (joinWithNewline L) ++ "\n"
          = String.mk ((String.mk (joinWithNewline L) ++ "\n").data) := rfl
        _ = String.mk t.data := by rw [hdata]
        _ = t := rfl
  refine ⟨?_, key⟩
  intro x
  cases hx : strip_file x with
  | none => rfl
  | some t => exact key x t hx

/-- Witness for C5: the composition law at `"a"` and the fixed-point law at
the output `"a\n"` of `strip_file "a"`. -/
theorem normalize_idempotent_witness :
    (strip_file "a").bind strip_file = strip_file "a" ∧
    strip_file "a\n" = some "a\n" :=
  ⟨normalize_idempotent.1 "a", normalize_idempotent.2 "a" "a\n" (by decide)⟩

/-- C10: `strip_file` converts every universal line boundary to a single LF:
concretely it maps `"a\r\nb\rc"` to `"a\nb\nc\n"`, and in general any string
it returns contains no carriage return, every line-break character in it
being `'\n'`. -/
theorem normalize_no_carriage_return :
    strip_file "a\r\nb\rc" = some "a\nb\nc\n" ∧
    ∀ s t : String, strip_file s = some t →
      '\r' ∉ t.data ∧ ∀ c ∈ t.data, isLineBreak c = true → c = '\n' := by
  refine ⟨by decide, ?_⟩
  intro s t h
  obtain ⟨L, _, _, hnb, htd, _, _, _⟩ := strip_file_spec s t h
  have hmain : ∀ c ∈ t.data, isLineBreak c = true → c = '\n' := by
    intro c hc hbr
    rw [htd] at hc
    rcases List.mem_append.mp hc with h1 | h2
    · rcases mem_joinWithNewline L c h1 with h3 | ⟨l, hl, hcl⟩
      · exact h3
      · rw [hnb l hl c hcl] at hbr
        cases hbr
    · simpa using h2
  refine ⟨?_, hmain⟩
  intro hr
  exact absurd (hmain '\r' hr (by decide)) (by decide)

/-- Witness for C10: the general clause at the input `"a\r\nb\rc"` with
output `"a\nb\nc\n"`. -/
theorem normalize_no_carriage_return_witness :
    '\r' ∉ ("a\nb\nc\n" : String).data ∧
    ∀ c ∈ ("a\nb\nc\n" : String).data, isLineBreak c = true → c = '\n' :=
  normalize_no_carriage_return.2 "a\r\nb\rc" "a\nb\nc\n" (by decide)

/-- C7: with no directory argument or a `-h`/`--help` first argument, `main`
prints the usage line to standard output, returns exit code 1, and leaves
the filesystem and GET log untouched (no download is attempted). -/
theorem main_usage (args : List String) (w : World)
    (h : args.length < 2 ∨ args.getD 1 "" ∈ ["-h", "--help"]) :
    main args w =
      ({ w with stdout := w.stdout ++ ["usage: update.py <data directory>"] },
       Except.ok 1) := by
  unfold main
  rw [if_pos h]
  rfl

/-- Witness for C7: invoking with no directory argument. -/
theorem main_usage_witness :
    main ["update.py"] w0 =
      ({ w0 with stdout := w0.stdout ++ ["usage: update.py <data directory>"] },
       Except.ok 1) :=
  main_usage ["update.py"] w0 (by decide)

/-- C4: the fixed list is `CaseFolding.txt`, `UnicodeData.txt`,
`emoji/emoji-data.txt` in that order; with a valid directory argument `main`
is the sequential run of `download_file` over that list — returning exit
code 0 when all succeed and propagating the first error with the world state
reached so far — and the run processes descriptors in list order, a
successful download passing its world to the rest and an error aborting the
remaining iterations. -/
theorem main_sequential_order :
    files = ["CaseFolding.txt", "UnicodeData.txt", "emoji/emoji-data.txt"] ∧
    (∀ (args : List String) (w : World),
      ¬ (args.length < 2 ∨ args.getD 1 "" ∈ ["-h", "--help"]) →
      (∀ w', runAll files (args.getD 1 "") w = (w', Except.ok ()) →
        main args w = (w', Except.ok 0)) ∧
      (∀ w' e, runAll files (args.getD 1 "") w = (w', Except.error e) →
        main args w = (w', Except.error e))) ∧
    (∀ (f : String) (rest : List String) (d : String) (w w' : World),
      download_file f d w = (w', Except.ok ()) →
      runAll (f :: rest) d w = runAll rest d w') ∧
    (∀ (f : String) (rest : List String) (d : String) (w w' : World) (e : Err),
      download_file f d w = (w', Except.error e) →
      runAll (f :: rest) d w = (w', Except.error e)) := by
  refine ⟨rfl, ?_, ?_, ?_⟩
  · intro args w h
    constructor
    · intro w' hrun
      unfold main
      rw [if_neg h, hrun]
    · intro w' e hrun
      unfold main
      rw [if_neg h, hrun]
  · intro f rest d w w' hdl
    rw [runAll, hdl]
  · intro f rest d w w' e hdl
    rw [runAll, hdl]

/-- Witness for C4: a full successful run in the world `w0`, ending with
exit code 0. -/
theorem main_sequential_order_witness :
    main ["update.py", "out"] w0 = ((runAll files "out" w0).1, Except.ok 0) :=
  (main_sequential_order.2.1 ["update.py", "out"] w0 (by decide)).1
    (runAll files "out" w0).1 (by rfl)

/-- C2 counterexample: in the world `wBad`, whose response body is the
invalid UTF-8 byte `0xFF`, `download_file` fails with a decode error and yet
the output file exists with empty content — it was created (truncated) by
the `open(..., "w+")` that the source executes BEFORE decoding — refuting
the claim that the file is absent when decoding fails. -/
theorem download_decode_cex :
    (download_file "CaseFolding.txt" "out" wBad).2 = Except.error Err.decodeFail ∧
    fsGet (download_file "CaseFolding.txt" "out" wBad).1.fs "out/CaseFolding.txt" =
      some "" :=
  ⟨rfl, rfl⟩

/-- C2 (amended): `download_file` opens (creates-or-truncates) the
destination file BEFORE decoding; when the payload is not valid UTF-8 the
decode error propagates, but the descriptor's output file exists with empty
content rather than being absent. -/
theorem download_decode_truncates (f d : String) (w : World) (resp : Response)
    (hnet : w.net (get_full_path f) = Except.ok resp)
    (hdec : decodeUtf8 resp.content = none) :
    (download_file f d w).2 = Except.error Err.decodeFail ∧
    (download_file f d w).1.fs = fsSet w.fs (d ++ "/" ++ get_file_name f) "" ∧
    (download_file f d w).1.log = w.log ++ [get_full_path f] ∧
    fsGet (download_file f d w).1.fs (d ++ "/" ++ get_file_name f) = some "" := by
  have hd : download_file f d w =
      ({ w with log := w.log ++ [get_full_path f],
                fs := fsSet w.fs (d ++ "/" ++ get_file_name f) "" },
       Except.error Err.decodeFail) := by
    simp only [download_file, hnet, hdec]
  rw [hd]
  refine ⟨rfl, rfl, rfl, ?_⟩
  simp [fsGet, fsSet, List.find?]

/-- Witness for C2 (amended) in the world `wBad`. -/
theorem download_decode_truncates_witness :
    (download_file "CaseFolding.txt" "out" wBad).2 = Except.error Err.decodeFail ∧
    (download_file "CaseFolding.txt" "out" wBad).1.fs =
      fsSet wBad.fs ("out" ++ "/" ++ get_file_name "CaseFolding.txt") "" ∧
    (download_file "CaseFolding.txt" "out" wBad).1.log =
      wBad.log ++ [get_full_path "CaseFolding.txt"] ∧
    fsGet (download_file "CaseFolding.txt" "out" wBad).1.fs
      ("out" ++ "/" ++ get_file_name "CaseFolding.txt") = some "" :=
  download_decode_truncates "CaseFolding.txt" "out" wBad
    { status := 200, content := [0xFF] } (by rfl) (by decide)

/-- C3 counterexample: in the world `w404` the GET completes with the
non-success status 404 and an error-page body; `download_file` raises no
error — it returns successfully and writes the normalized 404 body to the
output file — refuting the claim that a non-success status terminates the
run with no file written (`requests.get` raises only on transport failures;
the source never checks `resp.status_code`). -/
theorem download_status_cex :
    w404.net (get_full_path "CaseFolding.txt") =
      Except.ok { status := 404, content := notFoundBody } ∧
    decodeUtf8 notFoundBody = some ("not found" : String).data ∧
    (download_file "CaseFolding.txt" "out" w404).2 = Except.ok () ∧
    fsGet (download_file "CaseFolding.txt" "out" w404).1.fs "out/CaseFolding.txt" =
      some "not found\n" :=
  ⟨rfl, rfl, rfl, rfl⟩

/-- C3 (amended): when the HTTP GET itself fails (transport-level error),
`download_file` propagates the error: the filesystem is unchanged (no output
file is written for the descriptor) and the surrounding run stops, so
subsequent descriptors are not processed.  A non-success HTTP status, by
contrast, is not detected (see the counterexample). -/
theorem download_net_error_aborts (f d : String) (w : World) (e : Nat)
    (hnet : w.net (get_full_path f) = Except.error e) :
    (download_file f d w).1.fs = w.fs ∧
    (download_file f d w).1.log = w.log ++ [get_full_path f] ∧
    (download_file f d w).2 = Except.error (Err.netFail e) ∧
    ∀ rest, runAll (f :: rest) d w =
      ((download_file f d w).1, Except.error (Err.netFail e)) := by
  have hd : download_file f d w =
      ({ w with log := w.log ++ [get_full_path f] }, Except.error (Err.netFail e)) := by
    simp only [download_file, hnet]
  refine ⟨by rw [hd], by rw [hd], by rw [hd], ?_⟩
  intro rest
  rw [runAll, hd]

/-- Witness for C3 (amended) in the world `wErr`, whose GETs fail with
transport error id 7. -/
theorem download_net_error_aborts_witness :
    (download_file "CaseFolding.txt" "out" wErr).1.fs = wErr.fs ∧
    (download_file "CaseFolding.txt" "out" wErr).1.log =
      wErr.log ++ [get_full_path "CaseFolding.txt"] ∧
    (download_file "CaseFolding.txt" "out" wErr).2 = Except.error (Err.netFail 7) ∧
    ∀ rest, runAll ("CaseFolding.txt" :: rest) "out" wErr =
      ((download_file "CaseFolding.txt" "out" wErr).1, Except.error (Err.netFail 7)) :=
  download_net_error_aborts "CaseFolding.txt" "out" wErr 7 (by rfl)

end UnicodeUpdate
